import Mathlib

/-!
Shallow embedding of the OCR result pipeline of `src/app.py`:
pixel preprocessing (`preprocess_image`), normalization of raw engine
output (`perform_ocr`'s comprehension, here `normalize`), overlay
rendering (`draw_boxes`) and text reconstruction (`text_summary`),
plus the sidebar language fallback of `build_sidebar`.

Strings are modelled as `List Char`; Python floats as `ℚ`; PIL images
as a free algebra of the image operations the app uses, with an
explicit heap for the in-place drawing done by `ImageDraw`.
-/

namespace OcrApp

/-- The ASCII/compact part of Python's `str.isspace` character class,
as used by `str.strip()`: space, tab, and the control/format characters
Python treats as whitespace. -/
def isPySpace (c : Char) : Bool :=
  c = ' ' || c = '\t' || c = '\n' || c = '\r' || c = '\x0b' || c = '\x0c' ||
  c = '\x1c' || c = '\x1d' || c = '\x1e' || c = '\x1f' || c = '\x85' ||
  c = '\xa0' || c = ' ' || c = ' ' || c = '　'

/-- The line-boundary characters of Python's `str.splitlines`. -/
def isLineBoundary (c : Char) : Bool :=
  c = '\n' || c = '\r' || c = '\x0b' || c = '\x0c' ||
  c = '\x1c' || c = '\x1d' || c = '\x1e' || c = '\x85' ||
  c = ' ' || c = ' '

theorem space_of_lineBoundary {c : Char} (h : isLineBoundary c = true) :
    isPySpace c = true := by
  simp only [isLineBoundary, Bool.or_eq_true, decide_eq_true_eq] at h
  simp only [isPySpace, Bool.or_eq_true, decide_eq_true_eq]
  tauto

/-- Python `str.strip()`: drop whitespace from both ends. -/
def strip (s : List Char) : List Char :=
  ((s.dropWhile isPySpace).reverse.dropWhile isPySpace).reverse

/-- Helper for `splitlines`: `acc` holds the current (reversed) line;
`sawCR` records that the previous character was `'\r'`, so that a
directly following `'\n'` is part of the same `"\r\n"` boundary and is
skipped rather than opening another empty line. -/
def splitlinesAux (sawCR : Bool) (acc : List Char) : List Char → List (List Char)
  | [] => if acc = [] then [] else [acc.reverse]
  | c :: rest =>
      if sawCR = true ∧ c = '\n' then splitlinesAux false acc rest
      else if c = '\r' then acc.reverse :: splitlinesAux true [] rest
      else if isLineBoundary c then acc.reverse :: splitlinesAux false [] rest
      else splitlinesAux false (c :: acc) rest

/-- Python `str.splitlines()`: split at line boundaries (`"\r\n"` counts
as one boundary); no trailing empty line for a trailing boundary. -/
def splitlines (s : List Char) : List (List Char) :=
  splitlinesAux false [] s

/-- Python `"\n".join(...)`. -/
def joinNL : List (List Char) → List Char
  | [] => []
  | [x] => x
  | x :: xs => x ++ '\n' :: joinNL xs

/-- Python's `int(...)` applied to a numeric value: truncation toward
zero (`int(3.7) == 3`, `int(-3.7) == -3`). -/
def pyInt (q : ℚ) : ℤ :=
  if 0 ≤ q then ⌊q⌋ else ⌈q⌉

/-- `OcrResult` dataclass of `src/app.py` (`bbox`, `text`, `confidence`). -/
structure OcrResult where
  bbox : List (ℤ × ℤ)
  text : List Char
  confidence : ℚ
deriving DecidableEq, Repr

instance : Inhabited OcrResult := ⟨⟨[], [], 0⟩⟩

/-- A raw engine triple `(bbox, text, confidence)` as consumed by
`perform_ocr`: polygon points with numeric coordinates, a text, a
numeric confidence. -/
abbrev RawDetection := List (ℚ × ℚ) × List Char × ℚ

/-- The normalization comprehension of `perform_ocr` (src/app.py:47-54):
`OcrResult(bbox=[tuple(map(int, point)) for point in bbox],
text=text.strip(), confidence=float(confidence))` for each raw triple,
in order. -/
def normalize (raw : List RawDetection) : List OcrResult :=
  raw.map fun t =>
    { bbox := t.1.map fun p => (pyInt p.1, pyInt p.2)
      text := strip t.2.1
      confidence := t.2.2 }

/-- The language fallback of `build_sidebar` (src/app.py:80):
`tuple(languages) or ("vi",)` — an empty selection falls back to
`("vi",)`, a non-empty one is passed through. -/
def sidebarLanguages (selected : List (List Char)) : List (List Char) :=
  if selected = [] then [['v', 'i']] else selected

/-- `text_summary` (src/app.py:83-86):
`text = "\n".join(r.text for r in results if r.text)`;
`lines = [line.strip() for line in text.splitlines() if line.strip()]`;
`return "\n".join(lines)`. -/
def text_summary (results : List OcrResult) : List Char :=
  let text := joinNL ((results.filter fun r => r.text ≠ []).map fun r => r.text)
  let lines := ((splitlines text).filter fun line => strip line ≠ []).map strip
  joinNL lines

/-- Free model of the PIL image values the app constructs: a raw upload,
`ImageOps.grayscale`, `ImageOps.invert`, `ImageEnhance.Contrast(...).enhance(c)`,
`convert("RGB")`, and the two in-place draws of `ImageDraw`
(`draw.polygon`, `draw.text`). Two values are pixel-identical iff equal. -/
inductive ImageVal where
  | raw (id : ℕ)
  | gray (v : ImageVal)
  | inverted (v : ImageVal)
  | enhanced (c : ℚ) (v : ImageVal)
  | rgb (v : ImageVal)
  | polyDrawn (v : ImageVal) (pts : List (ℤ × ℤ))
  | textDrawn (v : ImageVal) (pos : ℤ × ℤ) (s : List Char)
deriving DecidableEq, Repr

/-- Whether the outermost operation applied to the value is contrast
enhancement. -/
def appliedContrast : ImageVal → Bool
  | .enhanced _ _ => true
  | _ => false

/-- `preprocess_image` (src/app.py:32-40): grayscale if requested, then
invert if requested, then contrast enhancement if `contrast != 1.0`. -/
def preprocess_image (image : ImageVal) (grayscale invert : Bool) (contrast : ℚ) :
    ImageVal :=
  let processed := image
  let processed := if grayscale then ImageVal.gray processed else processed
  let processed := if invert then ImageVal.inverted processed else processed
  let processed := if contrast ≠ 1 then ImageVal.enhanced contrast processed else processed
  processed

/-- A PIL heap: image objects addressed by index (handle). -/
abbrev Heap := List ImageVal

/-- Read the image object behind a handle. -/
def heapGet (h : Heap) (i : ℕ) : ImageVal :=
  h.getD i (ImageVal.raw 0)

/-- `image.convert("RGB")`: returns a fresh image object. -/
def pilConvertRGB (h : Heap) (i : ℕ) : Heap × ℕ :=
  (h ++ [ImageVal.rgb (heapGet h i)], h.length)

/-- `image.copy()`: returns a fresh image object with the same pixels. -/
def pilCopy (h : Heap) (i : ℕ) : Heap × ℕ :=
  (h ++ [heapGet h i], h.length)

/-- `draw.polygon(bbox, outline="lime")`: mutates the target in place. -/
def drawPolygonOp (h : Heap) (i : ℕ) (pts : List (ℤ × ℤ)) : Heap :=
  h.set i (ImageVal.polyDrawn (heapGet h i) pts)

/-- `draw.text((x, y - 12), text, fill="yellow")`: mutates the target in
place. -/
def drawTextOp (h : Heap) (i : ℕ) (pos : ℤ × ℤ) (s : List Char) : Heap :=
  h.set i (ImageVal.textDrawn (heapGet h i) pos s)

/-- The loop body of `draw_boxes` for one result: draw the polygon
outline, then, when the text is non-empty, the label at `(x, y - 12)`
where `(x, y) = result.bbox[0]`. -/
def drawStep (preview : ℕ) (hh : Heap) (r : OcrResult) : Heap :=
  let hh := drawPolygonOp hh preview r.bbox
  if r.text ≠ [] then
    let q := r.bbox.headD (0, 0)
    drawTextOp hh preview (q.1, q.2 - 12) r.text
  else hh

/-- `draw_boxes` (src/app.py:57-65): `preview = image.convert("RGB").copy()`,
then for each result in order draw onto `preview`; returns the handle of
`preview`. -/
def draw_boxes (h : Heap) (image : ℕ) (results : List OcrResult) : Heap × ℕ :=
  let c := pilConvertRGB h image
  let p := pilCopy c.1 c.2
  let preview := p.2
  (results.foldl (drawStep preview) p.1, preview)

/-! ### Lemmas about `strip` -/

theorem strip_eq (s : List Char) :
    strip s = List.rdropWhile isPySpace (s.dropWhile isPySpace) := rfl

theorem dropWhile_head_false {α : Type} {p : α → Bool} {l : List α} {a : α} {r : List α}
    (h : List.dropWhile p l = a :: r) : p a = false := by
  induction l with
  | nil => simp [List.dropWhile] at h
  | cons x xs ih =>
    rw [List.dropWhile_cons] at h
    by_cases hx : p x = true
    · rw [if_pos hx] at h; exact ih h
    · rw [if_neg hx] at h
      injection h with h1 _
      subst h1
      simpa using hx

/-- Stripping is idempotent. -/
theorem strip_strip (s : List Char) : strip (strip s) = strip s := by
  rw [strip_eq s, strip_eq]
  have h1 : List.dropWhile isPySpace (List.rdropWhile isPySpace (s.dropWhile isPySpace)) =
      List.rdropWhile isPySpace (s.dropWhile isPySpace) := by
    cases hrd : List.rdropWhile isPySpace (s.dropWhile isPySpace) with
    | nil => simp
    | cons a u =>
      have hpre : List.rdropWhile isPySpace (s.dropWhile isPySpace) <+:
          s.dropWhile isPySpace := List.rdropWhile_prefix _ _
      rw [hrd] at hpre
      obtain ⟨k, hk⟩ := hpre
      have ha : isPySpace a = false := dropWhile_head_false hk.symm
      simp [List.dropWhile_cons, ha]
  rw [h1, List.rdropWhile_idempotent]

theorem mem_of_mem_strip {c : Char} {s : List Char} (h : c ∈ strip s) : c ∈ s := by
  rw [strip_eq] at h
  exact (List.dropWhile_suffix isPySpace).sublist.subset
    ((List.rdropWhile_prefix isPySpace (s.dropWhile isPySpace)).sublist.subset h)

/-- A string strips to empty exactly when all its characters are
whitespace. -/
theorem strip_eq_nil_iff {s : List Char} :
    strip s = [] ↔ ∀ c ∈ s, isPySpace c = true := by
  rw [strip_eq, List.rdropWhile_eq_nil_iff]
  constructor
  · intro h c hc
    rw [← List.takeWhile_append_dropWhile isPySpace s] at hc
    rcases List.mem_append.mp hc with h1 | h2
    · exact List.mem_takeWhile_imp h1
    · exact h c h2
  · intro h c hc
    exact h c ((List.dropWhile_suffix isPySpace).sublist.subset hc)

/-! ### Lemmas about `splitlines` -/

theorem splitlinesAux_boundary_free (sawCR : Bool) (acc s : List Char) :
    (∀ c ∈ acc, isLineBoundary c = false) →
      ∀ l ∈ splitlinesAux sawCR acc s, ∀ c ∈ l, isLineBoundary c = false := by
  induction sawCR, acc, s using splitlinesAux.induct with
  | case1 sawCR =>
    intro _ l hl
    simp [splitlinesAux] at hl
  | case2 sawCR acc hacc =>
    intro hinv l hl
    rw [splitlinesAux, if_neg hacc] at hl
    simp only [List.mem_singleton] at hl
    subst hl
    intro c hc
    exact hinv c (List.mem_reverse.mp hc)
  | case3 sawCR acc c rest hcond ih =>
    intro hinv l hl
    rw [splitlinesAux, if_pos hcond] at hl
    exact ih hinv l hl
  | case4 sawCR acc rest hcond ih =>
    intro hinv l hl
    rw [splitlinesAux, if_neg hcond, if_pos rfl] at hl
    rcases List.mem_cons.mp hl with h | h
    · subst h
      intro c hc
      exact hinv c (List.mem_reverse.mp hc)
    · exact ih (by simp) l h
  | case5 sawCR acc c rest hcond hcr hb ih =>
    intro hinv l hl
    rw [splitlinesAux, if_neg hcond, if_neg hcr, if_pos hb] at hl
    rcases List.mem_cons.mp hl with h | h
    · subst h
      intro c hc
      exact hinv c (List.mem_reverse.mp hc)
    · exact ih (by simp) l h
  | case6 sawCR acc c rest hcond hcr hb ih =>
    intro hinv l hl
    rw [splitlinesAux, if_neg hcond, if_neg hcr, if_neg hb] at hl
    refine ih ?_ l hl
    intro x hx
    rcases List.mem_cons.mp hx with h | h
    · subst h
      simpa using hb
    · exact hinv x h

/-- No produced line contains a line-boundary character. -/
theorem mem_splitlines_boundary_free {s l : List Char} {c : Char}
    (hl : l ∈ splitlines s) (hc : c ∈ l) : isLineBoundary c = false :=
  splitlinesAux_boundary_free false [] s (by simp) l hl c hc

theorem splitlinesAux_mem_mem (sawCR : Bool) (acc s : List Char) :
    ∀ l ∈ splitlinesAux sawCR acc s, ∀ c ∈ l, c ∈ acc ∨ c ∈ s := by
  induction sawCR, acc, s using splitlinesAux.induct with
  | case1 sawCR =>
    intro l hl
    simp [splitlinesAux] at hl
  | case2 sawCR acc hacc =>
    intro l hl
    rw [splitlinesAux, if_neg hacc] at hl
    simp only [List.mem_singleton] at hl
    subst hl
    intro c hc
    exact Or.inl (List.mem_reverse.mp hc)
  | case3 sawCR acc c rest hcond ih =>
    intro l hl c' hc'
    rw [splitlinesAux, if_pos hcond] at hl
    rcases ih l hl c' hc' with h | h
    · exact Or.inl h
    · exact Or.inr (List.mem_cons_of_mem _ h)
  | case4 sawCR acc rest hcond ih =>
    intro l hl c' hc'
    rw [splitlinesAux, if_neg hcond, if_pos rfl] at hl
    rcases List.mem_cons.mp hl with h | h
    · subst h
      exact Or.inl (List.mem_reverse.mp hc')
    · rcases ih l h c' hc' with h2 | h2
      · simp at h2
      · exact Or.inr (List.mem_cons_of_mem _ h2)
  | case5 sawCR acc c rest hcond hcr hb ih =>
    intro l hl c' hc'
    rw [splitlinesAux, if_neg hcond, if_neg hcr, if_pos hb] at hl
    rcases List.mem_cons.mp hl with h | h
    · subst h
      exact Or.inl (List.mem_reverse.mp hc')
    · rcases ih l h c' hc' with h2 | h2
      · simp at h2
      · exact Or.inr (List.mem_cons_of_mem _ h2)
  | case6 sawCR acc c rest hcond hcr hb ih =>
    intro l hl c' hc'
    rw [splitlinesAux, if_neg hcond, if_neg hcr, if_neg hb] at hl
    rcases ih l hl c' hc' with h | h
    · rcases List.mem_cons.mp h with h2 | h2
      · subst h2
        exact Or.inr (List.mem_cons_self _ _)
      · exact Or.inl h2
    · exact Or.inr (List.mem_cons_of_mem _ h)

/-- Every character of a produced line comes from the split string. -/
theorem mem_of_mem_splitlines {s l : List Char} {c : Char}
    (hl : l ∈ splitlines s) (hc : c ∈ l) : c ∈ s := by
  rcases splitlinesAux_mem_mem false [] s l hl c hc with h | h
  · simp at h
  · exact h

theorem splitlinesAux_append (l : List Char) :
    ∀ acc s, (∀ c ∈ l, isLineBoundary c = false) →
      splitlinesAux false acc (l ++ s) = splitlinesAux false (l.reverse ++ acc) s := by
  induction l with
  | nil => intro acc s _; simp
  | cons c l' ih =>
    intro acc s hfree
    have hc : isLineBoundary c = false := hfree c (List.mem_cons_self _ _)
    have hcr : ¬ c = '\r' := by
      intro e; subst e; simp [isLineBoundary] at hc
    have hcond : ¬ (false = true ∧ c = '\n') := by
      intro ⟨e, _⟩; cases e
    simp only [List.cons_append]
    rw [splitlinesAux, if_neg hcond, if_neg hcr, if_neg (by simp [hc])]
    rw [ih (c :: acc) s (fun x hx => hfree x (List.mem_cons_of_mem _ hx))]
    congr 1
    simp

/-- Splitting a `"\n"`-join of non-empty, boundary-free lines recovers
exactly those lines. -/
theorem splitlines_join (L : List (List Char)) :
    (∀ l ∈ L, l ≠ [] ∧ ∀ c ∈ l, isLineBoundary c = false) →
      splitlines (joinNL L) = L := by
  induction L with
  | nil => intro _; rfl
  | cons l L' ih =>
    intro h
    obtain ⟨hne, hfree⟩ := h l (List.mem_cons_self _ _)
    cases L' with
    | nil =>
      show splitlinesAux false [] (joinNL [l]) = [l]
      have : joinNL [l] = l ++ [] := by simp [joinNL]
      rw [this, splitlinesAux_append l [] [] hfree]
      rw [splitlinesAux]
      rw [if_neg (by simp [hne])]
      simp
    | cons l₂ L'' =>
      show splitlinesAux false [] (joinNL (l :: l₂ :: L'')) = l :: l₂ :: L''
      have hj : joinNL (l :: l₂ :: L'') = l ++ '\n' :: joinNL (l₂ :: L'') := by
        simp [joinNL]
      rw [hj, splitlinesAux_append l [] _ hfree]
      rw [splitlinesAux]
      rw [if_neg (by intro ⟨e, _⟩; cases e)]
      rw [if_neg (by decide), if_pos (by decide)]
      have hrec : splitlinesAux false [] (joinNL (l₂ :: L'')) = l₂ :: L'' :=
        ih (fun x hx => h x (List.mem_cons_of_mem _ hx))
      rw [hrec]
      simp

/-! ### Lemmas about `text_summary` -/

/-- The local `lines` value of `text_summary`. -/
def summaryLines (results : List OcrResult) : List (List Char) :=
  ((splitlines (joinNL ((results.filter fun r => r.text ≠ []).map fun r => r.text))).filter
    fun line => strip line ≠ []).map strip

theorem text_summary_eq (results : List OcrResult) :
    text_summary results = joinNL (summaryLines results) := rfl

/-- Every produced line is non-empty, already stripped, and free of
line-boundary characters. -/
theorem summaryLines_clean (results : List OcrResult) :
    ∀ l ∈ summaryLines results,
      l ≠ [] ∧ strip l = l ∧ ∀ c ∈ l, isLineBoundary c = false := by
  intro l hl
  simp only [summaryLines, List.mem_map, List.mem_filter] at hl
  obtain ⟨l₀, ⟨hl₀, hs⟩, rfl⟩ := hl
  refine ⟨by simpa using hs, strip_strip l₀, ?_⟩
  intro c hc
  exact mem_splitlines_boundary_free hl₀ (mem_of_mem_strip hc)

/-- Splitting the summary recovers exactly its lines. -/
theorem splitlines_text_summary (results : List OcrResult) :
    splitlines (text_summary results) = summaryLines results := by
  rw [text_summary_eq]
  exact splitlines_join _ (fun l hl =>
    ⟨(summaryLines_clean results l hl).1, (summaryLines_clean results l hl).2.2⟩)

/-- On results whose texts are already non-empty, stripped and
boundary-free, `text_summary` is just the `"\n"`-join of the texts. -/
theorem text_summary_of_clean (results : List OcrResult)
    (h : ∀ r ∈ results,
      r.text ≠ [] ∧ strip r.text = r.text ∧ ∀ c ∈ r.text, isLineBoundary c = false) :
    text_summary results = joinNL (results.map fun r => r.text) := by
  rw [text_summary_eq]
  congr 1
  unfold summaryLines
  have hfilter : (results.filter fun r => r.text ≠ []) = results :=
    List.filter_eq_self.mpr (fun r hr => by simpa using (h r hr).1)
  rw [hfilter]
  have hsplit : splitlines (joinNL (results.map fun r => r.text)) =
      results.map fun r => r.text := by
    apply splitlines_join
    intro l hl
    simp only [List.mem_map] at hl
    obtain ⟨r, hr, rfl⟩ := hl
    exact ⟨(h r hr).1, (h r hr).2.2⟩
  rw [hsplit]
  have hfilter2 : ((results.map fun r => r.text).filter fun line => strip line ≠ []) =
      results.map fun r => r.text := by
    apply List.filter_eq_self.mpr
    intro l hl
    simp only [List.mem_map] at hl
    obtain ⟨r, hr, rfl⟩ := hl
    simp [(h r hr).2.1, (h r hr).1]
  rw [hfilter2]
  have hid : ∀ l ∈ results.map (fun r => r.text), strip l = id l := by
    intro l hl
    simp only [List.mem_map] at hl
    obtain ⟨r, hr, rfl⟩ := hl
    exact (h r hr).2.1
  rw [List.map_congr_left hid, List.map_id]

/-- Every character of a `"\n"`-join comes from one of the joined lists
or is the separator itself. -/
theorem mem_joinNL {L : List (List Char)} {c : Char} (h : c ∈ joinNL L) :
    c = '\n' ∨ ∃ t ∈ L, c ∈ t := by
  induction L with
  | nil => simp [joinNL] at h
  | cons x xs ih =>
    cases xs with
    | nil =>
      simp only [joinNL] at h
      exact Or.inr ⟨x, by simp, h⟩
    | cons y ys =>
      simp only [joinNL] at h
      rcases List.mem_append.mp h with h1 | h1
      · exact Or.inr ⟨x, by simp, h1⟩
      · rcases List.mem_cons.mp h1 with h2 | h2
        · exact Or.inl h2
        · rcases ih h2 with h3 | ⟨t, ht, hc⟩
          · exact Or.inl h3
          · exact Or.inr ⟨t, List.mem_cons_of_mem _ ht, hc⟩

/-! ### C1: coordinate coercion -/

/-- C1 counterexample: the polygon point `(3.7, 5.2)` normalizes to
`(3, 5)` (Python `int` truncates), not to the claimed `(4, 5)`. -/
theorem C1_counterexample :
    OcrApp.normalize [([(3.7, 5.2)], [], 0)] =
      [{ bbox := [(3, 5)], text := [], confidence := 0 }] ∧
    ([{ bbox := [(3, 5)], text := [], confidence := 0 }] : List OcrResult) ≠
      [{ bbox := [(4, 5)], text := [], confidence := 0 }] := by
  constructor
  · unfold OcrApp.normalize
    simp only [List.map]
    norm_num [pyInt, strip]
  · decide

/-- C1 (amended): normalization coerces every polygon coordinate with
Python's `int`, i.e. truncation toward zero — the floor for non-negative
coordinates — so the float point `(3.7, 5.2)` normalizes to `(3, 5)`,
not `(4, 5)`. -/
theorem C1_theorem :
    (∀ raw, (OcrApp.normalize raw).map OcrResult.bbox =
      raw.map fun t => t.1.map fun p => (pyInt p.1, pyInt p.2)) ∧
    (∀ q : ℚ, 0 ≤ q → pyInt q = ⌊q⌋) ∧
    OcrApp.normalize [([(3.7, 5.2)], [], 0)] =
      [{ bbox := [(3, 5)], text := [], confidence := 0 }] := by
  refine ⟨fun raw => ?_, fun q hq => ?_, ?_⟩
  · simp [OcrApp.normalize, List.map_map]
  · simp [pyInt, hq]
  · unfold OcrApp.normalize
    simp only [List.map]
    norm_num [pyInt, strip]

/-- Witness for `C1_theorem` at `q = 3.7`. -/
theorem C1_witness :
    0 ≤ (3.7 : ℚ) ∧ pyInt (3.7 : ℚ) = ⌊(3.7 : ℚ)⌋ :=
  ⟨by norm_num, C1_theorem.2.1 (3.7 : ℚ) (by norm_num)⟩

/-! ### C2: malformed-triple policy -/

/-- C2 counterexample: a triple whose polygon has only 2 points is
normalized and kept unchanged — the code neither fails with an error nor
skips the entry. -/
theorem C2_counterexample :
    OcrApp.normalize [([(0, 0), (1, 1)], ['h', 'i'], 1/2)] =
      [{ bbox := [(0, 0), (1, 1)], text := ['h', 'i'], confidence := 1/2 }] ∧
    ([((0:ℤ), (0:ℤ)), (1, 1)] : List (ℤ × ℤ)).length < 3 := by
  refine ⟨?_, by decide⟩
  have ht : strip ['h', 'i'] = ['h', 'i'] := by decide
  unfold OcrApp.normalize
  simp only [List.map]
  norm_num [ht, pyInt]

/-- C2 (amended): normalization applies no malformed-triple policy at
all — every triple is kept (output length equals input length) and each
polygon keeps its point count, even below 3 points. -/
theorem C2_theorem (raw : List RawDetection) :
    (OcrApp.normalize raw).length = raw.length ∧
    ((OcrApp.normalize raw).map fun r => r.bbox.length) =
      raw.map fun t => t.1.length := by
  constructor
  · simp [OcrApp.normalize]
  · simp [OcrApp.normalize, List.map_map]

/-! ### C3: language fallback -/

/-- C3 counterexample: an empty language selection falls back to
`("vi",)` alone, not to both `vi` and `en`. -/
theorem C3_counterexample :
    sidebarLanguages [] = [['v', 'i']] ∧
    ([['v', 'i']] : List (List Char)) ≠ [['v', 'i'], ['e', 'n']] := by
  exact ⟨rfl, by decide⟩

/-- C3 (amended): when the user selects no language the set passed to
the engine defaults to `vi` only; a non-empty selection is passed
through unchanged. -/
theorem C3_theorem :
    sidebarLanguages [] = [['v', 'i']] ∧
    ∀ s, s ≠ [] → sidebarLanguages s = s := by
  refine ⟨rfl, fun s hs => ?_⟩
  simp [sidebarLanguages, hs]

/-- Witness for `C3_theorem` at the selection `["en"]`. -/
theorem C3_witness :
    ([['e', 'n']] : List (List Char)) ≠ [] ∧
    sidebarLanguages [['e', 'n']] = [['e', 'n']] :=
  ⟨by decide, C3_theorem.2 [['e', 'n']] (by decide)⟩

/-! ### C4: non-negative coordinates -/

/-- C4 counterexample: a raw point with negative coordinate `-2.5`
normalizes to the negative integer coordinate `-2`; normalization does
not enforce non-negativity. -/
theorem C4_counterexample :
    OcrApp.normalize [([(-2.5, 3)], [], 0)] =
      [{ bbox := [(-2, 3)], text := [], confidence := 0 }] ∧
    ((-2 : ℤ) < 0) := by
  refine ⟨?_, by decide⟩
  have h1 : pyInt (-2.5 : ℚ) = -2 := by
    rw [pyInt, if_neg (by norm_num)]
    rw [show (-2.5 : ℚ) = -(2.5 : ℚ) by norm_num, Int.ceil_neg]
    norm_num
  unfold OcrApp.normalize
  simp only [List.map]
  simp [h1, strip]
  norm_num [pyInt]

/-- C4 (amended): every produced coordinate is an integer, and it is
non-negative whenever every raw coordinate is non-negative; the code
itself does not reject or clamp negative raw coordinates. -/
theorem C4_theorem (raw : List RawDetection)
    (hnn : ∀ t ∈ raw, ∀ p ∈ t.1, 0 ≤ p.1 ∧ 0 ≤ p.2) :
    ∀ r ∈ OcrApp.normalize raw, ∀ pt ∈ r.bbox, 0 ≤ pt.1 ∧ 0 ≤ pt.2 := by
  intro r hr pt hpt
  simp only [OcrApp.normalize, List.mem_map] at hr
  obtain ⟨t, ht, rfl⟩ := hr
  simp only [List.mem_map] at hpt
  obtain ⟨p, hp, rfl⟩ := hpt
  obtain ⟨h1, h2⟩ := hnn t ht p hp
  constructor
  · simpa [pyInt, h1] using Int.le_floor.mpr (by simpa using h1)
  · simpa [pyInt, h2] using Int.le_floor.mpr (by simpa using h2)

/-- Witness for `C4_theorem` at a concrete non-negative raw sequence. -/
theorem C4_witness :
    (∀ t ∈ ([([((2:ℚ), (3:ℚ))], [], 0)] : List RawDetection),
      ∀ p ∈ t.1, 0 ≤ p.1 ∧ 0 ≤ p.2) ∧
    ∀ r ∈ OcrApp.normalize [([(2, 3)], [], 0)], ∀ pt ∈ r.bbox,
      0 ≤ pt.1 ∧ 0 ≤ pt.2 :=
  ⟨by norm_num, C4_theorem _ (by norm_num)⟩

/-! ### C6: order preservation -/

/-- C6: normalization preserves input order — the sequence of `text`
values of the output is exactly the sequence of stripped raw texts, with
no sorting, deduplication or filtering. -/
theorem C6_theorem (raw : List RawDetection) :
    (OcrApp.normalize raw).map OcrResult.text = raw.map fun t => strip t.2.1 := by
  simp [OcrApp.normalize, List.map_map]

/-! ### C5: idempotence of reconstruction -/

/-- C5: reconstruction is idempotent — splitting the reconstructed text
of a normalized result set into lines, treating each line as a raw
result text (with any polygon and confidence), and normalizing and
reconstructing again reproduces the same text exactly. -/
theorem C5_theorem (R : List RawDetection) (poly : List (ℚ × ℚ)) (conf : ℚ) :
    text_summary (OcrApp.normalize ((splitlines (text_summary (OcrApp.normalize R))).map
      fun line => (poly, line, conf))) = text_summary (OcrApp.normalize R) := by
  rw [splitlines_text_summary]
  have hclean := summaryLines_clean (OcrApp.normalize R)
  have hres : OcrApp.normalize ((summaryLines (OcrApp.normalize R)).map
      fun line => (poly, line, conf)) =
      (summaryLines (OcrApp.normalize R)).map fun line =>
        { bbox := poly.map fun p => (pyInt p.1, pyInt p.2)
          text := strip line
          confidence := conf } := by
    simp [OcrApp.normalize, List.map_map]
  rw [hres]
  have h : ∀ r ∈ (summaryLines (OcrApp.normalize R)).map (fun line =>
      ({ bbox := poly.map fun p => (pyInt p.1, pyInt p.2)
         text := strip line
         confidence := conf } : OcrResult)),
      r.text ≠ [] ∧ strip r.text = r.text ∧ ∀ c ∈ r.text, isLineBoundary c = false := by
    intro r hr
    simp only [List.mem_map] at hr
    obtain ⟨line, hline, rfl⟩ := hr
    obtain ⟨h1, h2, h3⟩ := hclean line hline
    refine ⟨?_, ?_, ?_⟩
    · simp only [h2]
      exact h1
    · simp only [strip_strip]
    · intro c hc
      simp only [h2] at hc
      exact h3 c hc
  rw [text_summary_of_clean _ h]
  rw [text_summary_eq]
  congr 1
  rw [List.map_map]
  have hid : ∀ line ∈ summaryLines (OcrApp.normalize R),
      ((fun r => OcrResult.text r) ∘ fun line =>
        ({ bbox := poly.map fun p => (pyInt p.1, pyInt p.2)
           text := strip line
           confidence := conf } : OcrResult)) line = id line := by
    intro line hline
    exact (hclean line hline).2.1
  rw [List.map_congr_left hid, List.map_id]

/-! ### C7: blank-line elimination -/

/-- C7: reconstruction strips each line and drops every line that
becomes empty: the example `["  Hello  ", "", "World"]` reconstructs to
`"Hello\nWorld"`; every line of any summary is non-empty and stripped;
and a result set with no usable text (all texts strip to empty) yields
the empty string. -/
theorem C7_theorem :
    text_summary [{ bbox := [], text := "  Hello  ".toList, confidence := 0 },
        { bbox := [], text := [], confidence := 0 },
        { bbox := [], text := "World".toList, confidence := 0 }] =
      "Hello\nWorld".toList ∧
    (∀ results : List OcrResult, ∀ l ∈ splitlines (text_summary results),
      l ≠ [] ∧ strip l = l) ∧
    (∀ results : List OcrResult, (∀ r ∈ results, strip r.text = []) →
      text_summary results = []) := by
  refine ⟨by decide, ?_, ?_⟩
  · intro results l hl
    rw [splitlines_text_summary] at hl
    exact ⟨(summaryLines_clean results l hl).1, (summaryLines_clean results l hl).2.1⟩
  · intro results hws
    rw [text_summary_eq]
    have hempty : summaryLines results = [] := by
      unfold summaryLines
      rw [List.map_eq_nil_iff, List.filter_eq_nil_iff]
      intro l hl
      simp only [ne_eq, decide_not, Bool.not_eq_true', decide_eq_false_iff_not,
        Decidable.not_not]
      apply strip_eq_nil_iff.mpr
      intro c hc
      have hcj := mem_of_mem_splitlines hl hc
      rcases mem_joinNL hcj with h1 | ⟨t, ht, hct⟩
      · subst h1; decide
      · simp only [List.mem_map, List.mem_filter] at ht
        obtain ⟨r, ⟨hr, _⟩, rfl⟩ := ht
        exact strip_eq_nil_iff.mp (hws r hr) c hct
    rw [hempty]
    rfl

/-- Witness for `C7_theorem` at concrete inputs. -/
theorem C7_witness :
    ("Hello".toList ∈ splitlines (text_summary
        ([{ bbox := [], text := "  Hello  ".toList, confidence := 0 },
          { bbox := [], text := [], confidence := 0 },
          { bbox := [], text := "World".toList, confidence := 0 }] : List OcrResult)) ∧
      ("Hello".toList ≠ [] ∧ strip "Hello".toList = "Hello".toList)) ∧
    ((∀ r ∈ [({ bbox := [], text := " \t ".toList, confidence := 0 } : OcrResult)],
        strip r.text = []) ∧
      text_summary [({ bbox := [], text := " \t ".toList, confidence := 0 } : OcrResult)] = []) :=
  ⟨⟨by decide, C7_theorem.2.1
      ([{ bbox := [], text := "  Hello  ".toList, confidence := 0 },
        { bbox := [], text := [], confidence := 0 },
        { bbox := [], text := "World".toList, confidence := 0 }] : List OcrResult)
      ("Hello".toList) (by decide)⟩,
   ⟨by decide, C7_theorem.2.2
      [({ bbox := [], text := " \t ".toList, confidence := 0 } : OcrResult)] (by decide)⟩⟩

/-! ### C10: join-then-resplit -/

/-- C10: reconstruction joins the non-empty texts with newlines and
re-splits the joined string on line boundaries, so a single result whose
text embeds newlines contributes multiple output lines, each stripped
and with blank segments dropped: `" A \n\n B "` alone yields the two
lines `"A"` and `"B"`. -/
theorem C10_theorem :
    (∀ results : List OcrResult, text_summary results =
      joinNL (((splitlines (joinNL ((results.filter fun r => r.text ≠ []).map
        fun r => r.text))).filter fun line => strip line ≠ []).map strip)) ∧
    text_summary [{ bbox := [], text := " A \n\n B ".toList, confidence := 0 }] =
      "A\nB".toList ∧
    (splitlines (text_summary
      [{ bbox := [], text := " A \n\n B ".toList, confidence := 0 }])).length = 2 := by
  refine ⟨fun results => rfl, by decide, by decide⟩

/-! ### C8: preprocessing contrast identity -/

/-- C8: preprocessing with `grayscale=False`, `invert=False`,
`contrast=1.0` is the identity on the image; contrast enhancement is
applied exactly when `contrast != 1.0`, wrapping the grayscale/invert
result. -/
theorem C8_theorem :
    (∀ img, preprocess_image img false false 1 = img) ∧
    (∀ img gs inv, appliedContrast img = false →
      appliedContrast (preprocess_image img gs inv 1) = false) ∧
    (∀ img gs inv (c : ℚ), c ≠ 1 →
      preprocess_image img gs inv c = ImageVal.enhanced c (preprocess_image img gs inv 1)) := by
  refine ⟨fun img => ?_, fun img gs inv h => ?_, fun img gs inv c hc => ?_⟩
  · simp [preprocess_image]
  · cases gs <;> cases inv <;>
      simpa [preprocess_image, appliedContrast] using h
  · cases gs <;> cases inv <;> simp [preprocess_image, hc]

/-- Witness for `C8_theorem` at concrete inputs. -/
theorem C8_witness :
    (appliedContrast (ImageVal.raw 0) = false ∧
      appliedContrast (preprocess_image (ImageVal.raw 0) true true 1) = false) ∧
    ((2 : ℚ) ≠ 1 ∧
      preprocess_image (ImageVal.raw 0) true false 2 =
        ImageVal.enhanced 2 (preprocess_image (ImageVal.raw 0) true false 1)) :=
  ⟨⟨rfl, C8_theorem.2.1 (ImageVal.raw 0) true true rfl⟩,
   ⟨by norm_num, C8_theorem.2.2 (ImageVal.raw 0) true false 2 (by norm_num)⟩⟩

/-! ### C9: overlay non-mutation -/

theorem heapGet_append_of_lt {h : Heap} {i : ℕ} (hi : i < h.length) (l : Heap) :
    heapGet (h ++ l) i = heapGet h i := by
  simp [heapGet, List.getD, List.getElem?_append_left hi]

theorem heapGet_append_self (h : Heap) (v : ImageVal) :
    heapGet (h ++ [v]) h.length = v := by
  simp [heapGet, List.getD, List.getElem?_append_right (le_refl h.length)]

theorem heapGet_set_ne {h : Heap} {i j : ℕ} (hij : i ≠ j) (v : ImageVal) :
    heapGet (h.set i v) j = heapGet h j := by
  simp [heapGet, List.getD, List.getElem?_set_ne hij]

theorem heapGet_drawStep_ne {preview j : ℕ} (hne : preview ≠ j)
    (hh : Heap) (r : OcrResult) :
    heapGet (drawStep preview hh r) j = heapGet hh j := by
  unfold drawStep drawPolygonOp drawTextOp
  by_cases ht : r.text ≠ [] <;>
    simp [ht, heapGet_set_ne hne]

theorem heapGet_foldl_drawStep_ne {preview j : ℕ} (hne : preview ≠ j)
    (results : List OcrResult) :
    ∀ hh : Heap, heapGet (results.foldl (drawStep preview) hh) j = heapGet hh j := by
  induction results with
  | nil => intro hh; rfl
  | cons r rs ih =>
    intro hh
    rw [List.foldl_cons, ih, heapGet_drawStep_ne hne]

/-- C9: `draw_boxes` never mutates the base image object (all drawing
hits the freshly allocated `preview` copy), and with an empty result
list the returned image is exactly the base image converted to RGB with
nothing drawn on it. -/
theorem C9_theorem (h : Heap) (image : ℕ) (results : List OcrResult)
    (himg : image < h.length) :
    heapGet (draw_boxes h image results).1 image = heapGet h image ∧
    (draw_boxes h image []).1 =
      h ++ [ImageVal.rgb (heapGet h image), ImageVal.rgb (heapGet h image)] ∧
    heapGet (draw_boxes h image []).1 (draw_boxes h image []).2 =
      ImageVal.rgb (heapGet h image) := by
  have hcopyval : heapGet (h ++ [ImageVal.rgb (heapGet h image)]) h.length =
      ImageVal.rgb (heapGet h image) := heapGet_append_self h _
  have hheap : (draw_boxes h image results).1 =
      results.foldl (drawStep (h.length + 1))
        (h ++ [ImageVal.rgb (heapGet h image), ImageVal.rgb (heapGet h image)]) := by
    simp only [draw_boxes, pilConvertRGB, pilCopy, hcopyval, List.length_append,
      List.length_singleton, List.append_assoc, List.singleton_append]
  refine ⟨?_, ?_, ?_⟩
  · rw [hheap, heapGet_foldl_drawStep_ne (by omega)]
    rw [show h ++ [ImageVal.rgb (heapGet h image), ImageVal.rgb (heapGet h image)] =
      h ++ ([ImageVal.rgb (heapGet h image)] ++ [ImageVal.rgb (heapGet h image)]) by simp]
    exact heapGet_append_of_lt himg _
  · simp only [draw_boxes, pilConvertRGB, pilCopy, hcopyval, List.foldl_nil,
      List.append_assoc, List.singleton_append]
  · simp only [draw_boxes, pilConvertRGB, pilCopy, hcopyval, List.foldl_nil,
      List.length_append, List.length_singleton]
    rw [show List.length h + 1 =
      (h ++ [ImageVal.rgb (heapGet h image)]).length by simp]
    exact heapGet_append_self (h ++ [ImageVal.rgb (heapGet h image)]) _

/-- Witness for `C9_theorem` on a concrete one-image heap. -/
theorem C9_witness :
    heapGet (draw_boxes [ImageVal.raw 7] 0 [{ bbox := [(0, 0)], text := ['a'], confidence := 0 }]).1 0 =
      heapGet [ImageVal.raw 7] 0 ∧
    (draw_boxes [ImageVal.raw 7] 0 []).1 =
      [ImageVal.raw 7] ++ [ImageVal.rgb (heapGet [ImageVal.raw 7] 0),
        ImageVal.rgb (heapGet [ImageVal.raw 7] 0)] ∧
    heapGet (draw_boxes [ImageVal.raw 7] 0 []).1 (draw_boxes [ImageVal.raw 7] 0 []).2 =
      ImageVal.rgb (heapGet [ImageVal.raw 7] 0) :=
  C9_theorem [ImageVal.raw 7] 0 [{ bbox := [(0, 0)], text := ['a'], confidence := 0 }] (by decide)

end OcrApp
